import Mathlib

/-!
Verification of the file-batching utility (`file-batch-utils.js`).

The JavaScript `FileBatcher` class is shallowly embedded:
* `FileBatcher` mirrors the constructed object's fields; `mkFileBatcher`
  mirrors the constructor's `options.x || default` normalisation.
* `FileBatcher.createBatches` mirrors the `for (i = 0; i < files.length;
  i += batchSize)` slicing loop.  JavaScript `Array.prototype.slice`
  index clamping is modelled by `jsSlice`; since the loop variable is a
  plain number that can run forever when `batchSize <= 0`, the loop is
  given explicit fuel and `none` denotes non-termination.
* `FileBatcher.addFilesBatched` / `FileBatcher.commitFilesBatched`
  mirror the two async runners.  External effects (`execSync git add`,
  `execSync git commit`, previews, `sleep`) are recorded in an event
  trace, and the success of each external invocation is supplied by an
  `Oracle` indexed by invocation count.
* `FileBatcher.analyzeGitStatus` mirrors the porcelain-status filter.

`chunks` is the specification-side description of batching used to state
and prove properties of `createBatches`.
-/

/-- One observable external effect of a run. -/
inductive Ev where
  | stage (batch : List String)
  | commit (batch : List String) (message : String)
  | previewAdd (batch : List String)
  | previewCommit (message : String)
  | sleep (ms : Int)
deriving Repr, DecidableEq

/-- Mutable context threaded through a run: how many times the stage and
commit actions have been invoked, and the trace of effects so far. -/
structure RunState where
  sCnt : Nat
  cCnt : Nat
  trace : List Ev
deriving Repr, DecidableEq

/-- Outcome of each external invocation: `stageOk n` tells whether the
`n`-th invocation of `git add` succeeds, `commitOk n` likewise for
`git commit`. -/
structure Oracle where
  stageOk : Nat → Bool
  commitOk : Nat → Bool

/-- The errors the runners can throw. -/
inductive JsError where
  | emptyInput
  | stageFailed (batch : List String)
  | commitFailed (message : String)
deriving Repr, DecidableEq

/-- Result of a runner: normal return, thrown error (with the state at
the throw, effects already performed included), or non-termination. -/
inductive RunResult where
  | ok (st : RunState)
  | err (e : JsError) (st : RunState)
  | diverge
deriving Repr, DecidableEq

/-- The `FileBatcher` object's fields after construction. -/
structure FileBatcher where
  batchSize : Int
  verbose : Bool
  dryRun : Bool
  delay : Int
deriving Repr, DecidableEq

/-- The constructor's `options` argument; `none` is an absent field. -/
structure JsOptions where
  batchSize : Option Int
  verbose : Option Bool
  dryRun : Option Bool
  delay : Option Int

/-- JavaScript `x || d` for a numeric option: an absent or zero (falsy)
value yields the default, anything else passes through. -/
def jsOrNum (v : Option Int) (d : Int) : Int :=
  match v with
  | none => d
  | some n => if n = 0 then d else n

/-- JavaScript `x || false` for a boolean option. -/
def jsOrBool (v : Option Bool) : Bool :=
  match v with
  | none => false
  | some b => b

/-- The `FileBatcher` constructor (source lines 15-20). -/
def mkFileBatcher (options : JsOptions) : FileBatcher :=
  { batchSize := jsOrNum options.batchSize 50
    verbose := jsOrBool options.verbose
    dryRun := jsOrBool options.dryRun
    delay := jsOrNum options.delay 100 }

/-- JavaScript `Array.prototype.slice` index normalisation: a negative
index counts from the end (clamped at 0), a non-negative one is clamped
at the length. -/
def jsSliceIdx (len : Nat) (x : Int) : Nat :=
  if x < 0 then ((len : Int) + x).toNat else min x.toNat len

/-- JavaScript `files.slice(s, e)`. -/
def jsSlice (l : List String) (s e : Int) : List String :=
  (l.take (jsSliceIdx l.length e)).drop (jsSliceIdx l.length s)

/-- The body of `createBatches` (source lines 77-83): starting at index
`i`, repeatedly push `files.slice(i, i + size)` and advance `i` by
`size` while `i < files.length`.  `fuel` bounds the number of loop
iterations; `none` means the fuel ran out, i.e. the JavaScript loop runs
longer (forever, when `size <= 0` on non-empty input). -/
def createBatchesAux (size : Int) (files : List String) :
    Nat → Int → List (List String) → Option (List (List String))
  | 0, _, _ => none
  | fuel + 1, i, acc =>
    if i < (files.length : Int) then
      createBatchesAux size files fuel (i + size) (acc ++ [jsSlice files i (i + size)])
    else
      some acc

/-- `FileBatcher.createBatches` (source lines 77-83).  With a positive
batch size the loop makes at most `files.length` iterations, so
`files.length + 1` units of fuel are exact. -/
def FileBatcher.createBatches (b : FileBatcher) (files : List String) :
    Option (List (List String)) :=
  createBatchesAux b.batchSize files (files.length + 1) 0 []

/-- The commit-message computation (source lines 102-104):
`` `${baseMessage} (batch ${batchNum}/${totalBatches})` `` when more
than one batch exists, the base message alone otherwise. -/
def jsCommitMsg (base : String) (batchNum total : Nat) : String :=
  if 1 < total then
    base ++ " (batch " ++ toString batchNum ++ "/" ++ toString total ++ ")"
  else base

/-- The loop body of `addFilesBatched` (source lines 37-65): for each
batch, either preview (dry run) or invoke `git add` (recorded as a
`stage` event, outcome from the oracle at the current stage-invocation
count); on failure rethrow; otherwise sleep when this is not the last
batch and the delay is positive. -/
def addLoop (b : FileBatcher) (o : Oracle) (total : Nat) :
    Nat → List (List String) → RunState → RunResult
  | _, [], st => .ok st
  | i, batch :: rest, st =>
    if b.dryRun then
      let st1 : RunState := ⟨st.sCnt, st.cCnt, st.trace ++ [.previewAdd batch]⟩
      let st2 : RunState :=
        if i + 1 < total ∧ 0 < b.delay then
          ⟨st1.sCnt, st1.cCnt, st1.trace ++ [.sleep b.delay]⟩
        else st1
      addLoop b o total (i + 1) rest st2
    else
      let st1 : RunState := ⟨st.sCnt + 1, st.cCnt, st.trace ++ [.stage batch]⟩
      if o.stageOk st.sCnt then
        let st2 : RunState :=
          if i + 1 < total ∧ 0 < b.delay then
            ⟨st1.sCnt, st1.cCnt, st1.trace ++ [.sleep b.delay]⟩
          else st1
        addLoop b o total (i + 1) rest st2
      else
        .err (.stageFailed batch) st1

/-- `FileBatcher.addFilesBatched` (source lines 26-70): reject an empty
file list before computing batches, then run the batch loop. -/
def FileBatcher.addFilesBatched (b : FileBatcher) (o : Oracle)
    (files : List String) (st : RunState) : RunResult :=
  if files.length = 0 then .err .emptyInput st
  else
    match b.createBatches files with
    | none => .diverge
    | some batches => addLoop b o batches.length 0 batches st

/-- The loop body of `commitFilesBatched` (source lines 93-122): for
each batch, stage it through `addFilesBatched`, then commit (or preview
the commit) with the per-batch message, then sleep when this is not the
last batch and the delay is positive. -/
def commitLoop (b : FileBatcher) (o : Oracle) (base : String) (total : Nat) :
    Nat → List (List String) → RunState → RunResult
  | _, [], st => .ok st
  | i, batch :: rest, st =>
    match b.addFilesBatched o batch st with
    | .diverge => .diverge
    | .err e st1 => .err e st1
    | .ok st1 =>
      let msg := jsCommitMsg base (i + 1) total
      if b.dryRun then
        let st2 : RunState := ⟨st1.sCnt, st1.cCnt, st1.trace ++ [.previewCommit msg]⟩
        let st3 : RunState :=
          if i + 1 < total ∧ 0 < b.delay then
            ⟨st2.sCnt, st2.cCnt, st2.trace ++ [.sleep b.delay]⟩
          else st2
        commitLoop b o base total (i + 1) rest st3
      else
        let st2 : RunState := ⟨st1.sCnt, st1.cCnt + 1, st1.trace ++ [.commit batch msg]⟩
        if o.commitOk st1.cCnt then
          let st3 : RunState :=
            if i + 1 < total ∧ 0 < b.delay then
              ⟨st2.sCnt, st2.cCnt, st2.trace ++ [.sleep b.delay]⟩
            else st2
          commitLoop b o base total (i + 1) rest st3
        else
          .err (.commitFailed msg) st2

/-- `FileBatcher.commitFilesBatched` (source lines 90-123): compute the
batches (no empty-input check here) and run the commit loop. -/
def FileBatcher.commitFilesBatched (b : FileBatcher) (o : Oracle)
    (files : List String) (base : String) (st : RunState) : RunResult :=
  match b.createBatches files with
  | none => .diverge
  | some batches => commitLoop b o base batches.length 0 batches st

/-- Result of `analyzeGitStatus`. -/
structure AnalysisResult where
  needsBatching : Bool
  fileCount : Nat
  files : List String
deriving Repr, DecidableEq

/-- The line filter of `analyzeGitStatus` (source line 178): keep
non-blank lines starting with `??`, ` M` or ` A`. -/
def statusLineKeep (line : String) : Bool :=
  !(line.trim == "") &&
    (line.startsWith "??" || line.startsWith " M" || line.startsWith " A")

/-- `FileBatcher.analyzeGitStatus` (source lines 173-200), applied to
the text returned by `git status --porcelain`: split into lines, keep
recognised entries, strip the three-character status column, and flag
batching when the count exceeds the configured batch size. -/
def FileBatcher.analyzeGitStatus (b : FileBatcher) (status : String) : AnalysisResult :=
  let unstagedFiles :=
    ((status.splitOn "\n").filter statusLineKeep).map (fun line => line.drop 3)
  if (unstagedFiles.length : Int) > b.batchSize then
    { needsBatching := true, fileCount := unstagedFiles.length, files := unstagedFiles }
  else
    { needsBatching := false, fileCount := unstagedFiles.length, files := unstagedFiles }

/-! ### Specification-side helpers -/

/-- Specification-side batching: consecutive groups of `S` elements.
Returns `[]` when `S = 0` to stay total; all uses assume `1 ≤ S`. -/
def chunks (S : Nat) (l : List α) : List (List α) :=
  match l with
  | [] => []
  | x :: xs =>
    if S = 0 then []
    else (x :: xs).take S :: chunks S ((x :: xs).drop S)
termination_by l.length
decreasing_by
  simp only [List.length_drop, List.length_cons]
  omega

/-- The batches handed to the stage action, in invocation order. -/
def stageBatchesOf (tr : List Ev) : List (List String) :=
  tr.filterMap fun e =>
    match e with
    | .stage batch => some batch
    | _ => none

/-- The batches handed to the commit action, in invocation order. -/
def commitBatchesOf (tr : List Ev) : List (List String) :=
  tr.filterMap fun e =>
    match e with
    | .commit batch _ => some batch
    | _ => none

/-- The messages handed to the commit action, in invocation order. -/
def commitMsgsOf (tr : List Ev) : List String :=
  tr.filterMap fun e =>
    match e with
    | .commit _ msg => some msg
    | _ => none

/-- The sleep events of a trace. -/
def sleepsOf (tr : List Ev) : List Ev :=
  tr.filter fun e =>
    match e with
    | .sleep _ => true
    | _ => false

/-- Events that invoke an external mutating action. -/
def isActionEv : Ev → Bool
  | .stage _ => true
  | .commit _ _ => true
  | _ => false

/-- Expected trace of a fully successful `addLoop` run starting at loop
index `i`. -/
def addOkTrace (b : FileBatcher) (total : Nat) : List (List String) → Nat → List Ev
  | [], _ => []
  | batch :: rest, i =>
    [.stage batch] ++
      (if i + 1 < total ∧ 0 < b.delay then [.sleep b.delay] else []) ++
      addOkTrace b total rest (i + 1)

/-- Expected trace of a fully successful `commitLoop` run starting at
loop index `i`. -/
def commitOkTrace (b : FileBatcher) (base : String) (total : Nat) :
    List (List String) → Nat → List Ev
  | [], _ => []
  | batch :: rest, i =>
    [.stage batch, .commit batch (jsCommitMsg base (i + 1) total)] ++
      (if i + 1 < total ∧ 0 < b.delay then [.sleep b.delay] else []) ++
      commitOkTrace b base total rest (i + 1)

/-! ### Properties of `chunks` -/

theorem chunks_nil (S : Nat) : chunks S ([] : List α) = [] := by
  rw [chunks.eq_def]

theorem chunks_cons (S : Nat) (hS : S ≠ 0) (x : α) (xs : List α) :
    chunks S (x :: xs) = (x :: xs).take S :: chunks S ((x :: xs).drop S) := by
  rw [chunks.eq_def]
  simp [hS]

theorem chunks_of_ne_nil (S : Nat) (hS : S ≠ 0) (l : List α) (hl : l ≠ []) :
    chunks S l = l.take S :: chunks S (l.drop S) := by
  cases l with
  | nil => exact absurd rfl hl
  | cons x xs => exact chunks_cons S hS x xs

theorem chunks_eq_nil_iff (S : Nat) (hS : S ≠ 0) (l : List α) :
    chunks S l = [] ↔ l = [] := by
  constructor
  · intro h
    by_contra hl
    rw [chunks_of_ne_nil S hS l hl] at h
    exact List.cons_ne_nil _ _ h
  · intro h
    subst h
    exact chunks_nil S

theorem chunks_flatten_bounded (S : Nat) (hS : 1 ≤ S) :
    ∀ (n : Nat) (l : List α), l.length ≤ n → (chunks S l).flatten = l := by
  intro n
  induction n with
  | zero =>
    intro l hl
    have : l = [] := List.length_eq_zero.mp (Nat.le_zero.mp hl)
    subst this
    simp [chunks_nil]
  | succ n ih =>
    intro l hl
    cases l with
    | nil => simp [chunks_nil]
    | cons x xs =>
      rw [chunks_cons S (by omega) x xs]
      simp only [List.flatten_cons]
      rw [ih ((x :: xs).drop S)
        (by simp only [List.length_drop, List.length_cons]
            simp only [List.length_cons] at hl
            omega)]
      exact List.take_append_drop S (x :: xs)

/-- Concatenating the chunks in order reproduces the input. -/
theorem chunks_flatten (S : Nat) (hS : 1 ≤ S) (l : List α) :
    (chunks S l).flatten = l :=
  chunks_flatten_bounded S hS l.length l (Nat.le_refl _)

theorem chunks_length_bounded (S : Nat) (hS : 1 ≤ S) :
    ∀ (n : Nat) (l : List α), l.length ≤ n →
      (chunks S l).length = (l.length + S - 1) / S := by
  intro n
  induction n with
  | zero =>
    intro l hl
    have : l = [] := List.length_eq_zero.mp (Nat.le_zero.mp hl)
    subst this
    simp only [chunks_nil, List.length_nil, Nat.zero_add]
    exact (Nat.div_eq_of_lt (by omega)).symm
  | succ n ih =>
    intro l hl
    cases l with
    | nil =>
      simp only [chunks_nil, List.length_nil, Nat.zero_add]
      exact (Nat.div_eq_of_lt (by omega)).symm
    | cons x xs =>
      rw [chunks_cons S (by omega) x xs]
      simp only [List.length_cons]
      rw [ih ((x :: xs).drop S)
        (by simp only [List.length_drop, List.length_cons]
            simp only [List.length_cons] at hl
            omega)]
      simp only [List.length_drop, List.length_cons]
      by_cases hle : xs.length + 1 ≤ S
      · have h1 : xs.length + 1 - S = 0 := by omega
        rw [h1]
        have h2 : (0 + S - 1) / S = 0 := Nat.div_eq_of_lt (by omega)
        rw [h2]
        have h3 : (xs.length + 1 + S - 1) / S = 1 :=
          Nat.div_eq_of_lt_le (by omega) (by omega)
        rw [h3]
      · have h1 : xs.length + 1 + S - 1 = (xs.length + 1 - S + S - 1) + S := by omega
        rw [h1, Nat.add_div_right _ (by omega)]

/-- The number of chunks is the ceiling of `length / S`. -/
theorem chunks_length (S : Nat) (hS : 1 ≤ S) (l : List α) :
    (chunks S l).length = (l.length + S - 1) / S :=
  chunks_length_bounded S hS l.length l (Nat.le_refl _)

theorem chunks_getElem_bounded (S : Nat) (hS : 1 ≤ S) :
    ∀ (n : Nat) (l : List α), l.length ≤ n →
      ∀ k, k < (chunks S l).length →
        (chunks S l)[k]? = some ((l.drop (k * S)).take S) := by
  intro n
  induction n with
  | zero =>
    intro l hl k hk
    have hnil : l = [] := List.length_eq_zero.mp (Nat.le_zero.mp hl)
    subst hnil
    simp [chunks_nil] at hk
  | succ n ih =>
    intro l hl k hk
    cases l with
    | nil => simp [chunks_nil] at hk
    | cons x xs =>
      have hcons := chunks_cons S (by omega) x xs
      rw [hcons]
      cases k with
      | zero => simp
      | succ k =>
        rw [List.getElem?_cons_succ]
        have hlen : ((x :: xs).drop S).length ≤ n := by
          simp only [List.length_drop, List.length_cons]
          simp only [List.length_cons] at hl
          omega
        have hk' : k < (chunks S ((x :: xs).drop S)).length := by
          rw [hcons] at hk
          simp only [List.length_cons] at hk
          omega
        rw [ih ((x :: xs).drop S) hlen k hk']
        rw [List.drop_drop]
        have harith : S + k * S = (k + 1) * S := by ring
        rw [harith]

/-- Chunk `k` is the slice `l[k*S : k*S+S]`. -/
theorem chunks_getElem (S : Nat) (hS : 1 ≤ S) (l : List α)
    (k : Nat) (hk : k < (chunks S l).length) :
    (chunks S l)[k]? = some ((l.drop (k * S)).take S) :=
  chunks_getElem_bounded S hS l.length l (Nat.le_refl _) k hk

theorem chunks_len_at_bounded (S : Nat) (hS : 1 ≤ S) :
    ∀ (n : Nat) (l : List α), l.length ≤ n →
      ∀ k batch, (chunks S l)[k]? = some batch →
        batch.length =
          if k + 1 < (chunks S l).length then S
          else if l.length % S = 0 then S else l.length % S := by
  intro n
  induction n with
  | zero =>
    intro l hl k batch hsome
    have hnil : l = [] := List.length_eq_zero.mp (Nat.le_zero.mp hl)
    subst hnil
    rw [chunks_nil] at hsome
    simp at hsome
  | succ n ih =>
    intro l hl k batch hsome
    cases l with
    | nil =>
      rw [chunks_nil] at hsome
      simp at hsome
    | cons x xs =>
      have hcons := chunks_cons S (by omega) x xs
      rw [hcons] at hsome
      have hlen1 : (x :: xs).length = xs.length + 1 := List.length_cons x xs
      have htail0 : (chunks S ((x :: xs).drop S)).length = 0 ↔ xs.length + 1 ≤ S := by
        rw [List.length_eq_zero, chunks_eq_nil_iff S (by omega)]
        rw [List.drop_eq_nil_iff]
        simp only [List.length_cons]
      cases k with
      | zero =>
        rw [List.getElem?_cons_zero] at hsome
        injection hsome with hb
        subst hb
        rw [hcons]
        simp only [List.length_take, List.length_cons]
        by_cases hsmall : xs.length + 1 ≤ S
        · have h0 : (chunks S ((x :: xs).drop S)).length = 0 := htail0.mpr hsmall
          rw [h0]
          rw [if_neg (by omega)]
          by_cases heq : xs.length + 1 = S
          · rw [heq, Nat.mod_self, if_pos rfl]
            exact min_self S
          · have hlt : xs.length + 1 < S := by omega
            rw [Nat.mod_eq_of_lt hlt, if_neg (by omega)]
            exact min_eq_right (by omega)
        · have h0 : (chunks S ((x :: xs).drop S)).length ≠ 0 :=
            fun h => hsmall (htail0.mp h)
          rw [if_pos (by omega)]
          exact min_eq_left (by omega)
      | succ k =>
        rw [List.getElem?_cons_succ] at hsome
        have hklt : k < (chunks S ((x :: xs).drop S)).length := by
          by_contra hge
          rw [List.getElem?_eq_none (by omega)] at hsome
          exact Option.noConfusion hsome
        have hbig : S < xs.length + 1 := by
          by_contra hle
          have h0 : (chunks S ((x :: xs).drop S)).length = 0 := htail0.mpr (by omega)
          omega
        have hlen : ((x :: xs).drop S).length ≤ n := by
          simp only [List.length_drop, List.length_cons]
          simp only [List.length_cons] at hl
          omega
        rw [ih ((x :: xs).drop S) hlen k batch hsome]
        rw [hcons]
        simp only [List.length_drop, List.length_cons]
        have hcnt : k + 1 < (chunks S ((x :: xs).drop S)).length ↔
            k + 1 + 1 < (chunks S ((x :: xs).drop S)).length + 1 := by omega
        have hmod : (xs.length + 1 - S) % S = (xs.length + 1) % S := by
          have hx : xs.length + 1 - S + S = xs.length + 1 := by omega
          calc (xs.length + 1 - S) % S
              = (xs.length + 1 - S + S) % S := (Nat.add_mod_right _ _).symm
            _ = (xs.length + 1) % S := by rw [hx]
        rw [hmod]
        by_cases hc : k + 1 < (chunks S ((x :: xs).drop S)).length
        · simp only [hc, if_true, List.length_cons]
          have hc' : k + 1 + 1 < (chunks S ((x :: xs).drop S)).length + 1 := by omega
          simp only [hc', if_true]
        · simp only [hc, if_false, List.length_cons]
          have hc' : ¬(k + 1 + 1 < (chunks S ((x :: xs).drop S)).length + 1) := by omega
          simp only [hc', if_false]

/-- Every chunk except possibly the last has exactly `S` elements; the
last has `length mod S`, or `S` when the remainder is zero. -/
theorem chunks_len_at (S : Nat) (hS : 1 ≤ S) (l : List α)
    (k : Nat) (batch : List α) (hsome : (chunks S l)[k]? = some batch) :
    batch.length =
      if k + 1 < (chunks S l).length then S
      else if l.length % S = 0 then S else l.length % S :=
  chunks_len_at_bounded S hS l.length l (Nat.le_refl _) k batch hsome

theorem chunks_mem_bounded (S : Nat) (hS : 1 ≤ S) :
    ∀ (n : Nat) (l : List α), l.length ≤ n →
      ∀ batch ∈ chunks S l, batch ≠ [] ∧ batch.length ≤ S := by
  intro n
  induction n with
  | zero =>
    intro l hl batch hmem
    have hnil : l = [] := List.length_eq_zero.mp (Nat.le_zero.mp hl)
    subst hnil
    rw [chunks_nil] at hmem
    simp at hmem
  | succ n ih =>
    intro l hl batch hmem
    cases l with
    | nil =>
      rw [chunks_nil] at hmem
      simp at hmem
    | cons x xs =>
      rw [chunks_cons S (by omega) x xs] at hmem
      rcases List.mem_cons.mp hmem with h | h
      · subst h
        constructor
        · have : (List.take S (x :: xs)).length = min S (x :: xs).length :=
            List.length_take S (x :: xs)
          intro hnil
          rw [hnil] at this
          simp only [List.length_nil, List.length_cons] at this
          omega
        · have := List.length_take S (x :: xs)
          omega
      · exact ih ((x :: xs).drop S)
          (by simp only [List.length_drop, List.length_cons]
              simp only [List.length_cons] at hl
              omega) batch h

/-- Every chunk is non-empty and no longer than `S`. -/
theorem chunks_mem (S : Nat) (hS : 1 ≤ S) (l : List α) :
    ∀ batch ∈ chunks S l, batch ≠ [] ∧ batch.length ≤ S :=
  chunks_mem_bounded S hS l.length l (Nat.le_refl _)

/-- A non-empty list that fits in one chunk is its own single chunk. -/
theorem chunks_singleton (S : Nat) (hS : 1 ≤ S) (l : List α)
    (hl : l ≠ []) (hfit : l.length ≤ S) : chunks S l = [l] := by
  rw [chunks_of_ne_nil S (by omega) l hl]
  rw [List.take_of_length_le hfit]
  rw [List.drop_eq_nil_of_le hfit]
  rw [chunks_nil]

/-! ### `createBatches` refines `chunks` for positive sizes and runs
forever for negative ones -/

theorem jsSlice_nat (l : List String) (i S : Nat) (hi : i ≤ l.length) :
    jsSlice l (i : Int) ((i + S : Nat) : Int) = (l.drop i).take S := by
  unfold jsSlice jsSliceIdx
  have h1 : ¬((i : Int) < 0) := by omega
  have h2 : ¬(((i + S : Nat) : Int) < 0) := by omega
  rw [if_neg h1, if_neg h2]
  have h3 : ((i + S : Nat) : Int).toNat = i + S := by omega
  have h4 : (i : Int).toNat = i := by omega
  rw [h3, h4]
  rw [min_eq_left hi]
  have h6 : l.take (min (i + S) l.length) = l.take (i + S) := by
    apply List.take_eq_take.mpr
    omega
  rw [h6, List.drop_take]
  have h7 : i + S - i = S := by omega
  rw [h7]

theorem createBatchesAux_pos (S : Nat) (hS : 1 ≤ S) (files : List String) :
    ∀ (fuel : Nat) (i : Nat) (acc : List (List String)),
      files.length - i < fuel →
      createBatchesAux (S : Int) files fuel (i : Int) acc
        = some (acc ++ chunks S (files.drop i)) := by
  intro fuel
  induction fuel with
  | zero =>
    intro i acc h
    omega
  | succ fuel ih =>
    intro i acc h
    rw [createBatchesAux]
    by_cases hlt : i < files.length
    · rw [if_pos (by exact_mod_cast hlt)]
      have hcast : (i : Int) + (S : Int) = ((i + S : Nat) : Int) := by push_cast; ring
      rw [hcast]
      rw [ih (i + S) (acc ++ [jsSlice files (i : Int) ((i + S : Nat) : Int)]) (by omega)]
      rw [jsSlice_nat files i S (by omega)]
      rw [chunks_of_ne_nil S (by omega) (files.drop i)
        (by
          apply List.length_pos.mp
          rw [List.length_drop]
          omega)]
      rw [List.drop_drop]
      simp
    · rw [if_neg (by exact_mod_cast hlt)]
      rw [List.drop_eq_nil_of_le (by omega)]
      rw [chunks_nil, List.append_nil]

/-- For a positive batch size, `createBatches` terminates and returns
exactly the `chunks` partition. -/
theorem createBatches_eq_chunks (b : FileBatcher) (S : Nat)
    (hb : b.batchSize = (S : Int)) (hS : 1 ≤ S) (files : List String) :
    b.createBatches files = some (chunks S files) := by
  unfold FileBatcher.createBatches
  rw [hb]
  have h := createBatchesAux_pos S hS files (files.length + 1) 0 [] (by omega)
  simpa using h

/-- For a non-positive batch size and non-empty input, the
`createBatches` loop never terminates: no amount of fuel suffices. -/
theorem createBatchesAux_nonpos (size : Int) (hsize : size ≤ 0)
    (files : List String) (hne : files ≠ []) :
    ∀ (fuel : Nat) (i : Int), i ≤ 0 → ∀ acc,
      createBatchesAux size files fuel i acc = none := by
  intro fuel
  induction fuel with
  | zero =>
    intro i hi acc
    rw [createBatchesAux]
  | succ fuel ih =>
    intro i hi acc
    rw [createBatchesAux]
    have hpos : 0 < files.length := List.length_pos.mpr hne
    have hcast : (0 : Int) < (files.length : Int) := by exact_mod_cast hpos
    rw [if_pos (by omega)]
    exact ih (i + size) (by omega) _

theorem createBatches_neg (b : FileBatcher) (hneg : b.batchSize < 0)
    (files : List String) (hne : files ≠ []) :
    b.createBatches files = none := by
  unfold FileBatcher.createBatches
  exact createBatchesAux_nonpos b.batchSize (by omega) files hne _ 0 (by omega) []


example :
    (FileBatcher.mk 2 false false 100).createBatches ["a", "b", "c"]
      = some [["a", "b"], ["c"]] := rfl

/-! ### Claims about partitioning and configuration -/

/-- C1: for every file list and every batch size `S ≥ 1`,
`createBatches` terminates and returns batches whose in-order
concatenation reproduces the input exactly (no loss, duplication or
reordering), and batch `k` (0-indexed) is the slice
`files[k*S : min((k+1)*S, N)]`, i.e. `(files.drop (k*S)).take S`. -/
theorem claim_C1_partition_complete (b : FileBatcher) (S : Nat)
    (hb : b.batchSize = (S : Int)) (hS : 1 ≤ S) (files : List String) :
    ∃ bs, b.createBatches files = some bs ∧
      bs.flatten = files ∧
      ∀ k, k < bs.length → bs[k]? = some ((files.drop (k * S)).take S) := by
  refine ⟨chunks S files, createBatches_eq_chunks b S hb hS files,
    chunks_flatten S hS files, ?_⟩
  intro k hk
  exact chunks_getElem S hS files k hk

theorem claim_C1_witness :
    ∃ bs, (FileBatcher.mk 2 false false 100).createBatches ["a", "b", "c"] = some bs ∧
      bs.flatten = ["a", "b", "c"] ∧
      ∀ k, k < bs.length → bs[k]? = some ((["a", "b", "c"].drop (k * 2)).take 2) :=
  claim_C1_partition_complete (FileBatcher.mk 2 false false 100) 2 rfl
    (by omega) ["a", "b", "c"]

/-- C6: for batch size `S ≥ 1`, `createBatches` yields exactly
`ceil(N/S)` batches; every batch except possibly the last has exactly
`S` items, the last has `N mod S` items (or `S` when the remainder is
zero), and every batch is non-empty. -/
theorem claim_C6_batch_count_sizes (b : FileBatcher) (S : Nat)
    (hb : b.batchSize = (S : Int)) (hS : 1 ≤ S) (files : List String) :
    ∃ bs, b.createBatches files = some bs ∧
      bs.length = (files.length + S - 1) / S ∧
      (∀ k batch, bs[k]? = some batch →
        batch.length =
          if k + 1 < bs.length then S
          else if files.length % S = 0 then S else files.length % S) ∧
      ∀ batch ∈ bs, batch ≠ [] := by
  refine ⟨chunks S files, createBatches_eq_chunks b S hb hS files,
    chunks_length S hS files, ?_, ?_⟩
  · intro k batch hsome
    exact chunks_len_at S hS files k batch hsome
  · intro batch hmem
    exact (chunks_mem S hS files batch hmem).1

theorem claim_C6_witness :
    ∃ bs, (FileBatcher.mk 2 false false 100).createBatches ["a", "b", "c"] = some bs ∧
      bs.length = (3 + 2 - 1) / 2 ∧
      (∀ k batch, bs[k]? = some batch →
        batch.length = if k + 1 < bs.length then 2
          else if 3 % 2 = 0 then 2 else 3 % 2) ∧
      ∀ batch ∈ bs, batch ≠ [] :=
  claim_C6_batch_count_sizes (FileBatcher.mk 2 false false 100) 2 rfl
    (by omega) ["a", "b", "c"]

/-- C3 counterexample: a batch size of 0 does not fail with any
configuration error — the constructor silently substitutes the default
50 and `createBatches` returns a normal result. -/
theorem claim_C3_counterexample :
    (mkFileBatcher ⟨some 0, none, none, none⟩).batchSize = 50 ∧
    (mkFileBatcher ⟨some 0, none, none, none⟩).createBatches ["a"]
      = some [["a"]] := by
  exact ⟨rfl, rfl⟩

/-- C3 amended: there is no `InvalidConfiguration` validation at all.
A configured batch size of 0 is silently replaced by 50 in the
constructor, so partitioning succeeds using size 50; a negative batch
size passes through unchanged and makes the `createBatches` loop run
forever (no fuel suffices), so it never returns any result. -/
theorem claim_C3_amended (b : FileBatcher) (hneg : b.batchSize < 0)
    (files : List String) (hne : files ≠ []) :
    b.createBatches files = none ∧
    (∀ (fuel : Nat) (i : Int), i ≤ 0 → ∀ acc,
      createBatchesAux b.batchSize files fuel i acc = none) ∧
    (mkFileBatcher ⟨some 0, none, none, none⟩).batchSize = 50 ∧
    (mkFileBatcher ⟨some 0, none, none, none⟩).createBatches ["a"]
      = some [["a"]] := by
  refine ⟨createBatches_neg b hneg files hne, ?_, rfl, rfl⟩
  intro fuel i hi acc
  exact createBatchesAux_nonpos b.batchSize (by omega) files hne fuel i hi acc

theorem claim_C3_witness :
    (FileBatcher.mk (-5) false false 100).createBatches ["a"] = none ∧
    (∀ (fuel : Nat) (i : Int), i ≤ 0 → ∀ acc,
      createBatchesAux (FileBatcher.mk (-5) false false 100).batchSize ["a"] fuel i acc = none) ∧
    (mkFileBatcher ⟨some 0, none, none, none⟩).batchSize = 50 ∧
    (mkFileBatcher ⟨some 0, none, none, none⟩).createBatches ["a"]
      = some [["a"]] :=
  claim_C3_amended (FileBatcher.mk (-5) false false 100) (by decide)
    ["a"] (by decide)

/-- C4 counterexample: a commit run on the empty file list does not
fail with an empty-input error — it computes zero batches and returns
successfully without invoking any action. -/
theorem claim_C4_counterexample :
    (mkFileBatcher ⟨none, none, none, none⟩).commitFilesBatched
        ⟨fun _ => true, fun _ => true⟩ [] "Add files" ⟨0, 0, []⟩
      = .ok ⟨0, 0, []⟩ := by
  rfl

/-- C4 amended: `addFilesBatched` rejects the empty list with the
empty-input error before computing any batch or invoking any action
(the state, hence the trace, is returned untouched), but
`commitFilesBatched` performs no such check: on empty input it computes
zero batches and returns successfully, with no action invoked. -/
theorem claim_C4_amended (b : FileBatcher) (o : Oracle) (st : RunState)
    (base : String) :
    b.addFilesBatched o [] st = .err .emptyInput st ∧
    b.commitFilesBatched o [] base st = .ok st := by
  constructor
  · rfl
  · rfl

/-- C10: the constructor silently replaces falsy numeric options with
the defaults: a supplied batch size of 0 becomes 50 and a supplied
delay of 0 becomes 100, negative values pass through unchanged, so no
constructed batcher ever has a zero batch size or a zero delay; omitted
`verbose`/`dryRun` default to `false`. -/
theorem claim_C10_constructor :
    (∀ v d, (mkFileBatcher ⟨some 0, v, d, some 0⟩).batchSize = 50 ∧
            (mkFileBatcher ⟨some 0, v, d, some 0⟩).delay = 100) ∧
    (∀ n : Int, n < 0 → ∀ v d,
      (mkFileBatcher ⟨some n, v, d, some n⟩).batchSize = n ∧
      (mkFileBatcher ⟨some n, v, d, some n⟩).delay = n) ∧
    (∀ opts : JsOptions,
      (mkFileBatcher opts).batchSize ≠ 0 ∧ (mkFileBatcher opts).delay ≠ 0) ∧
    (∀ bs dl, (mkFileBatcher ⟨bs, none, none, dl⟩).verbose = false ∧
              (mkFileBatcher ⟨bs, none, none, dl⟩).dryRun = false) := by
  refine ⟨fun v d => ⟨rfl, rfl⟩, ?_, ?_, fun bs dl => ⟨rfl, rfl⟩⟩
  · intro n hn v d
    constructor
    · simp [mkFileBatcher, jsOrNum]
      omega
    · simp [mkFileBatcher, jsOrNum]
      omega
  · intro opts
    constructor
    · simp only [mkFileBatcher, jsOrNum]
      cases opts.batchSize with
      | none => decide
      | some n =>
        by_cases h : n = 0
        · simp [h]
        · simp [h]
    · simp only [mkFileBatcher, jsOrNum]
      cases opts.delay with
      | none => decide
      | some n =>
        by_cases h : n = 0
        · simp [h]
        · simp [h]

theorem claim_C10_witness :
    (mkFileBatcher ⟨some (-7), none, none, some (-7)⟩).batchSize = -7 ∧
    (mkFileBatcher ⟨some (-7), none, none, some (-7)⟩).delay = -7 :=
  claim_C10_constructor.2.1 (-7) (by decide) none none

/-- C9: `analyzeGitStatus` returns a result whose `fileCount` is the
number of recognised status entries, whose `files` lists exactly those
entries (status column stripped), and whose `needsBatching` flag is
true exactly when the count strictly exceeds the configured batch
size. -/
theorem claim_C9_analyze (b : FileBatcher) (status : String) :
    (b.analyzeGitStatus status).fileCount
        = (b.analyzeGitStatus status).files.length ∧
    (b.analyzeGitStatus status).files
        = ((status.splitOn "\n").filter statusLineKeep).map (fun line => line.drop 3) ∧
    ((b.analyzeGitStatus status).needsBatching = true ↔
      ((((status.splitOn "\n").filter statusLineKeep).length : Int) > b.batchSize)) := by
  simp only [FileBatcher.analyzeGitStatus]
  split
  next h =>
    refine ⟨by simp, rfl, ?_⟩
    simp only [List.length_map] at h
    simpa using h
  next h =>
    refine ⟨by simp, rfl, ?_⟩
    simp only [List.length_map] at h
    simpa using h

/-! ### Runner lemmas -/

theorem addFilesBatched_single (b : FileBatcher) (o : Oracle) (S : Nat)
    (hd : b.dryRun = false) (hb : b.batchSize = (S : Int)) (hS : 1 ≤ S)
    (batch : List String) (hne : batch ≠ []) (hfit : batch.length ≤ S)
    (st : RunState) :
    b.addFilesBatched o batch st =
      if o.stageOk st.sCnt then
        .ok ⟨st.sCnt + 1, st.cCnt, st.trace ++ [.stage batch]⟩
      else
        .err (.stageFailed batch) ⟨st.sCnt + 1, st.cCnt, st.trace ++ [.stage batch]⟩ := by
  unfold FileBatcher.addFilesBatched
  rw [if_neg (List.length_pos.mpr hne).ne']
  simp only [createBatches_eq_chunks b S hb hS batch,
    chunks_singleton S hS batch hne hfit]
  rw [addLoop]
  simp only [hd, Bool.false_eq_true, if_false]
  by_cases hok : o.stageOk st.sCnt
  · rw [hok, if_pos rfl]
    have hc : ¬(0 + 1 < [batch].length ∧ 0 < b.delay) := by
      simp only [List.length_cons, List.length_nil]
      omega
    rw [if_neg hc]
    rfl
  · have hok' : o.stageOk st.sCnt = false := by
      cases h : o.stageOk st.sCnt
      · rfl
      · exact absurd h hok
    rw [hok']
    rw [if_neg (by simp), if_neg (by simp [hok'])]

theorem addLoop_all_ok (b : FileBatcher) (o : Oracle) (total : Nat)
    (hd : b.dryRun = false) (hstage : ∀ n, o.stageOk n = true) :
    ∀ (bs : List (List String)) (i : Nat) (st : RunState),
      addLoop b o total i bs st =
        .ok ⟨st.sCnt + bs.length, st.cCnt, st.trace ++ addOkTrace b total bs i⟩ := by
  intro bs
  induction bs with
  | nil =>
    intro i st
    simp [addLoop, addOkTrace]
  | cons batch rest ih =>
    intro i st
    rw [addLoop]
    simp only [hd, Bool.false_eq_true, if_false]
    rw [hstage st.sCnt, if_pos rfl]
    rw [addOkTrace]
    by_cases hc : i + 1 < total ∧ 0 < b.delay
    · rw [if_pos hc, if_pos hc]
      rw [ih (i + 1) _]
      simp only [List.length_cons, List.append_assoc, List.cons_append,
        List.singleton_append, List.nil_append]
      have harith : st.sCnt + 1 + rest.length = st.sCnt + (rest.length + 1) := by omega
      rw [harith]
    · rw [if_neg hc, if_neg hc]
      rw [ih (i + 1) _]
      simp only [List.length_cons, List.append_assoc, List.cons_append,
        List.singleton_append, List.nil_append]
      have harith : st.sCnt + 1 + rest.length = st.sCnt + (rest.length + 1) := by omega
      rw [harith]

theorem addLoop_fail (b : FileBatcher) (o : Oracle) (total : Nat)
    (hd : b.dryRun = false) :
    ∀ (k : Nat) (bs : List (List String)) (i : Nat) (st : RunState),
      k < bs.length →
      (∀ j, j < k → o.stageOk (st.sCnt + j) = true) →
      o.stageOk (st.sCnt + k) = false →
      ∃ batchk, bs[k]? = some batchk ∧
        addLoop b o total i bs st =
          .err (.stageFailed batchk)
            ⟨st.sCnt + k + 1, st.cCnt,
             st.trace ++ addOkTrace b total (bs.take k) i ++ [.stage batchk]⟩ := by
  intro k
  induction k with
  | zero =>
    intro bs i st hk hpre hfail
    cases bs with
    | nil => simp at hk
    | cons batch rest =>
      refine ⟨batch, by simp, ?_⟩
      rw [addLoop]
      simp only [hd, Bool.false_eq_true, if_false]
      rw [Nat.add_zero] at hfail
      rw [hfail]
      rw [if_neg (by simp)]
      simp [addOkTrace]
  | succ k ih =>
    intro bs i st hk hpre hfail
    cases bs with
    | nil => simp at hk
    | cons batch rest =>
      rw [addLoop]
      simp only [hd, Bool.false_eq_true, if_false]
      have h0 : o.stageOk st.sCnt = true := by
        have := hpre 0 (by omega)
        rwa [Nat.add_zero] at this
      rw [h0, if_pos rfl]
      have hk' : k < rest.length := by
        simp only [List.length_cons] at hk
        omega
      have hpre' : ∀ (tr : List Ev) (j : Nat), j < k →
          o.stageOk ((⟨st.sCnt + 1, st.cCnt, tr⟩ : RunState).sCnt + j) = true := by
        intro tr j hj
        have := hpre (j + 1) (by omega)
        have heq : st.sCnt + 1 + j = st.sCnt + (j + 1) := by omega
        simpa [heq] using this
      have hfail' : ∀ (tr : List Ev),
          o.stageOk ((⟨st.sCnt + 1, st.cCnt, tr⟩ : RunState).sCnt + k) = false := by
        intro tr
        have heq : st.sCnt + 1 + k = st.sCnt + (k + 1) := by omega
        simpa [heq] using hfail
      by_cases hc : i + 1 < total ∧ 0 < b.delay
      · rw [if_pos hc]
        obtain ⟨batchk, hbk, hrun⟩ := ih rest (i + 1)
          ⟨st.sCnt + 1, st.cCnt, st.trace ++ [.stage batch] ++ [.sleep b.delay]⟩
          hk' (hpre' _) (hfail' _)
        refine ⟨batchk, by simpa using hbk, ?_⟩
        rw [hrun, List.take_succ_cons, addOkTrace, if_pos hc]
        simp only [RunResult.err.injEq, RunState.mk.injEq, List.append_assoc,
          List.cons_append, List.singleton_append, List.nil_append,
          and_true, true_and]
        omega
      · rw [if_neg hc]
        obtain ⟨batchk, hbk, hrun⟩ := ih rest (i + 1)
          ⟨st.sCnt + 1, st.cCnt, st.trace ++ [.stage batch]⟩
          hk' (hpre' _) (hfail' _)
        refine ⟨batchk, by simpa using hbk, ?_⟩
        rw [hrun, List.take_succ_cons, addOkTrace, if_neg hc]
        simp only [RunResult.err.injEq, RunState.mk.injEq, List.append_assoc,
          List.cons_append, List.singleton_append, List.nil_append,
          and_true, true_and]
        omega

theorem commitLoop_all_ok (b : FileBatcher) (o : Oracle) (base : String)
    (total : Nat) (S : Nat) (hd : b.dryRun = false)
    (hb : b.batchSize = (S : Int)) (hS : 1 ≤ S)
    (hstage : ∀ n, o.stageOk n = true) (hcommit : ∀ n, o.commitOk n = true) :
    ∀ (bs : List (List String)) (i : Nat) (st : RunState),
      (∀ batch ∈ bs, batch ≠ [] ∧ batch.length ≤ S) →
      commitLoop b o base total i bs st =
        .ok ⟨st.sCnt + bs.length, st.cCnt + bs.length,
             st.trace ++ commitOkTrace b base total bs i⟩ := by
  intro bs
  induction bs with
  | nil =>
    intro i st hwf
    simp [commitLoop, commitOkTrace]
  | cons batch rest ih =>
    intro i st hwf
    rw [commitLoop]
    rw [addFilesBatched_single b o S hd hb hS batch (hwf batch (by simp)).1
      (hwf batch (by simp)).2 st]
    rw [hstage st.sCnt, if_pos rfl]
    simp only [hd, Bool.false_eq_true, if_false]
    rw [hcommit st.cCnt, if_pos rfl]
    have hwf' : ∀ batch ∈ rest, batch ≠ [] ∧ batch.length ≤ S := by
      intro x hx
      exact hwf x (by simp [hx])
    by_cases hc : i + 1 < total ∧ 0 < b.delay
    · rw [if_pos hc]
      rw [ih (i + 1) _ hwf']
      rw [commitOkTrace, if_pos hc]
      simp only [RunResult.ok.injEq, RunState.mk.injEq, List.length_cons,
        List.append_assoc, List.cons_append, List.singleton_append,
        List.nil_append, and_true, true_and]
      omega
    · rw [if_neg hc]
      rw [ih (i + 1) _ hwf']
      rw [commitOkTrace, if_neg hc]
      simp only [RunResult.ok.injEq, RunState.mk.injEq, List.length_cons,
        List.append_assoc, List.cons_append, List.singleton_append,
        List.nil_append, and_true, true_and]
      omega

theorem commitLoop_fail_stage (b : FileBatcher) (o : Oracle) (base : String)
    (total : Nat) (S : Nat) (hd : b.dryRun = false)
    (hb : b.batchSize = (S : Int)) (hS : 1 ≤ S) :
    ∀ (k : Nat) (bs : List (List String)) (i : Nat) (st : RunState),
      (∀ batch ∈ bs, batch ≠ [] ∧ batch.length ≤ S) →
      k < bs.length →
      st.cCnt = st.sCnt →
      (∀ j, j < k → o.stageOk (st.sCnt + j) = true) →
      o.stageOk (st.sCnt + k) = false →
      (∀ j, j < k → o.commitOk (st.cCnt + j) = true) →
      ∃ batchk, bs[k]? = some batchk ∧
        commitLoop b o base total i bs st =
          .err (.stageFailed batchk)
            ⟨st.sCnt + k + 1, st.cCnt + k,
             st.trace ++ commitOkTrace b base total (bs.take k) i
               ++ [.stage batchk]⟩ := by
  intro k
  induction k with
  | zero =>
    intro bs i st hwf hk hcc hpre hfail hcpre
    cases bs with
    | nil => simp at hk
    | cons batch rest =>
      refine ⟨batch, by simp, ?_⟩
      rw [commitLoop]
      rw [addFilesBatched_single b o S hd hb hS batch (hwf batch (by simp)).1
        (hwf batch (by simp)).2 st]
      rw [Nat.add_zero] at hfail
      rw [hfail]
      rw [if_neg (by simp)]
      simp [commitOkTrace]
  | succ k ih =>
    intro bs i st hwf hk hcc hpre hfail hcpre
    cases bs with
    | nil => simp at hk
    | cons batch rest =>
      rw [commitLoop]
      rw [addFilesBatched_single b o S hd hb hS batch (hwf batch (by simp)).1
        (hwf batch (by simp)).2 st]
      have h0 : o.stageOk st.sCnt = true := by
        have := hpre 0 (by omega)
        rwa [Nat.add_zero] at this
      rw [h0, if_pos rfl]
      simp only [hd, Bool.false_eq_true, if_false]
      have hc0 : o.commitOk st.cCnt = true := by
        have := hcpre 0 (by omega)
        rwa [Nat.add_zero] at this
      rw [hc0, if_pos rfl]
      have hwf' : ∀ x ∈ rest, x ≠ [] ∧ x.length ≤ S := by
        intro x hx
        exact hwf x (by simp [hx])
      have hk' : k < rest.length := by
        simp only [List.length_cons] at hk
        omega
      have hpre' : ∀ j, j < k → o.stageOk (st.sCnt + 1 + j) = true := by
        intro j hj
        have := hpre (j + 1) (by omega)
        have heq : st.sCnt + 1 + j = st.sCnt + (j + 1) := by omega
        rw [heq]
        exact this
      have hfail' : o.stageOk (st.sCnt + 1 + k) = false := by
        have heq : st.sCnt + 1 + k = st.sCnt + (k + 1) := by omega
        rw [heq]
        exact hfail
      have hcpre' : ∀ j, j < k → o.commitOk (st.cCnt + 1 + j) = true := by
        intro j hj
        have := hcpre (j + 1) (by omega)
        have heq : st.cCnt + 1 + j = st.cCnt + (j + 1) := by omega
        rw [heq]
        exact this
      by_cases hc : i + 1 < total ∧ 0 < b.delay
      · rw [if_pos hc]
        obtain ⟨batchk, hbk, hrun⟩ := ih rest (i + 1)
          ⟨st.sCnt + 1, st.cCnt + 1,
           st.trace ++ [.stage batch]
             ++ [.commit batch (jsCommitMsg base (i + 1) total)]
             ++ [.sleep b.delay]⟩
          hwf' hk' (by simpa using hcc) hpre' hfail' hcpre'
        refine ⟨batchk, by simpa using hbk, ?_⟩
        rw [hrun, List.take_succ_cons, commitOkTrace, if_pos hc]
        simp only [RunResult.err.injEq, RunState.mk.injEq, List.append_assoc,
          List.cons_append, List.singleton_append, List.nil_append,
          and_true, true_and]
        omega
      · rw [if_neg hc]
        obtain ⟨batchk, hbk, hrun⟩ := ih rest (i + 1)
          ⟨st.sCnt + 1, st.cCnt + 1,
           st.trace ++ [.stage batch]
             ++ [.commit batch (jsCommitMsg base (i + 1) total)]⟩
          hwf' hk' (by simpa using hcc) hpre' hfail' hcpre'
        refine ⟨batchk, by simpa using hbk, ?_⟩
        rw [hrun, List.take_succ_cons, commitOkTrace, if_neg hc]
        simp only [RunResult.err.injEq, RunState.mk.injEq, List.append_assoc,
          List.cons_append, List.singleton_append, List.nil_append,
          and_true, true_and]
        omega

theorem commitLoop_fail_commit (b : FileBatcher) (o : Oracle) (base : String)
    (total : Nat) (S : Nat) (hd : b.dryRun = false)
    (hb : b.batchSize = (S : Int)) (hS : 1 ≤ S) :
    ∀ (k : Nat) (bs : List (List String)) (i : Nat) (st : RunState),
      (∀ batch ∈ bs, batch ≠ [] ∧ batch.length ≤ S) →
      k < bs.length →
      st.cCnt = st.sCnt →
      (∀ j, j ≤ k → o.stageOk (st.sCnt + j) = true) →
      (∀ j, j < k → o.commitOk (st.cCnt + j) = true) →
      o.commitOk (st.cCnt + k) = false →
      ∃ batchk, bs[k]? = some batchk ∧
        commitLoop b o base total i bs st =
          .err (.commitFailed (jsCommitMsg base (i + k + 1) total))
            ⟨st.sCnt + k + 1, st.cCnt + k + 1,
             st.trace ++ commitOkTrace b base total (bs.take k) i
               ++ [.stage batchk,
                   .commit batchk (jsCommitMsg base (i + k + 1) total)]⟩ := by
  intro k
  induction k with
  | zero =>
    intro bs i st hwf hk hcc hpre hcpre hcfail
    cases bs with
    | nil => simp at hk
    | cons batch rest =>
      refine ⟨batch, by simp, ?_⟩
      rw [commitLoop]
      rw [addFilesBatched_single b o S hd hb hS batch (hwf batch (by simp)).1
        (hwf batch (by simp)).2 st]
      have h0 : o.stageOk st.sCnt = true := by
        have := hpre 0 (by omega)
        rwa [Nat.add_zero] at this
      rw [h0, if_pos rfl]
      simp only [hd, Bool.false_eq_true, if_false]
      rw [Nat.add_zero] at hcfail
      rw [hcfail]
      rw [if_neg (by simp)]
      simp [commitOkTrace]
  | succ k ih =>
    intro bs i st hwf hk hcc hpre hcpre hcfail
    cases bs with
    | nil => simp at hk
    | cons batch rest =>
      rw [commitLoop]
      rw [addFilesBatched_single b o S hd hb hS batch (hwf batch (by simp)).1
        (hwf batch (by simp)).2 st]
      have h0 : o.stageOk st.sCnt = true := by
        have := hpre 0 (by omega)
        rwa [Nat.add_zero] at this
      rw [h0, if_pos rfl]
      simp only [hd, Bool.false_eq_true, if_false]
      have hc0 : o.commitOk st.cCnt = true := by
        have := hcpre 0 (by omega)
        rwa [Nat.add_zero] at this
      rw [hc0, if_pos rfl]
      have hwf' : ∀ x ∈ rest, x ≠ [] ∧ x.length ≤ S := by
        intro x hx
        exact hwf x (by simp [hx])
      have hk' : k < rest.length := by
        simp only [List.length_cons] at hk
        omega
      have hpre' : ∀ j, j ≤ k → o.stageOk (st.sCnt + 1 + j) = true := by
        intro j hj
        have := hpre (j + 1) (by omega)
        have heq : st.sCnt + 1 + j = st.sCnt + (j + 1) := by omega
        rw [heq]
        exact this
      have hcpre' : ∀ j, j < k → o.commitOk (st.cCnt + 1 + j) = true := by
        intro j hj
        have := hcpre (j + 1) (by omega)
        have heq : st.cCnt + 1 + j = st.cCnt + (j + 1) := by omega
        rw [heq]
        exact this
      have hcfail' : o.commitOk (st.cCnt + 1 + k) = false := by
        have heq : st.cCnt + 1 + k = st.cCnt + (k + 1) := by omega
        rw [heq]
        exact hcfail
      by_cases hc : i + 1 < total ∧ 0 < b.delay
      · rw [if_pos hc]
        obtain ⟨batchk, hbk, hrun⟩ := ih rest (i + 1)
          ⟨st.sCnt + 1, st.cCnt + 1,
           st.trace ++ [.stage batch]
             ++ [.commit batch (jsCommitMsg base (i + 1) total)]
             ++ [.sleep b.delay]⟩
          hwf' hk' (by simpa using hcc) hpre' hcpre' hcfail'
        refine ⟨batchk, by simpa using hbk, ?_⟩
        rw [hrun, List.take_succ_cons, commitOkTrace, if_pos hc]
        have hidx : i + 1 + k + 1 = i + (k + 1) + 1 := by omega
        rw [hidx]
        simp only [RunResult.err.injEq, RunState.mk.injEq, List.append_assoc,
          List.cons_append, List.singleton_append, List.nil_append,
          and_true, true_and]
        omega
      · rw [if_neg hc]
        obtain ⟨batchk, hbk, hrun⟩ := ih rest (i + 1)
          ⟨st.sCnt + 1, st.cCnt + 1,
           st.trace ++ [.stage batch]
             ++ [.commit batch (jsCommitMsg base (i + 1) total)]⟩
          hwf' hk' (by simpa using hcc) hpre' hcpre' hcfail'
        refine ⟨batchk, by simpa using hbk, ?_⟩
        rw [hrun, List.take_succ_cons, commitOkTrace, if_neg hc]
        have hidx : i + 1 + k + 1 = i + (k + 1) + 1 := by omega
        rw [hidx]
        simp only [RunResult.err.injEq, RunState.mk.injEq, List.append_assoc,
          List.cons_append, List.singleton_append, List.nil_append,
          and_true, true_and]
        omega

/-! ### Trace observers -/

theorem stageBatchesOf_append (t1 t2 : List Ev) :
    stageBatchesOf (t1 ++ t2) = stageBatchesOf t1 ++ stageBatchesOf t2 := by
  simp [stageBatchesOf]

theorem commitBatchesOf_append (t1 t2 : List Ev) :
    commitBatchesOf (t1 ++ t2) = commitBatchesOf t1 ++ commitBatchesOf t2 := by
  simp [commitBatchesOf]

theorem commitMsgsOf_append (t1 t2 : List Ev) :
    commitMsgsOf (t1 ++ t2) = commitMsgsOf t1 ++ commitMsgsOf t2 := by
  simp [commitMsgsOf]

theorem sleepsOf_append (t1 t2 : List Ev) :
    sleepsOf (t1 ++ t2) = sleepsOf t1 ++ sleepsOf t2 := by
  simp [sleepsOf]

theorem stageBatchesOf_addOkTrace (b : FileBatcher) (total : Nat) :
    ∀ (bs : List (List String)) (i : Nat),
      stageBatchesOf (addOkTrace b total bs i) = bs := by
  intro bs
  induction bs with
  | nil => intro i; simp [addOkTrace, stageBatchesOf]
  | cons batch rest ih =>
    intro i
    rw [addOkTrace]
    by_cases hc : i + 1 < total ∧ 0 < b.delay
    · rw [if_pos hc, stageBatchesOf_append, stageBatchesOf_append, ih (i + 1)]
      simp [stageBatchesOf]
    · rw [if_neg hc, stageBatchesOf_append, stageBatchesOf_append, ih (i + 1)]
      simp [stageBatchesOf]

theorem commitBatchesOf_addOkTrace (b : FileBatcher) (total : Nat) :
    ∀ (bs : List (List String)) (i : Nat),
      commitBatchesOf (addOkTrace b total bs i) = [] := by
  intro bs
  induction bs with
  | nil => intro i; simp [addOkTrace, commitBatchesOf]
  | cons batch rest ih =>
    intro i
    rw [addOkTrace]
    by_cases hc : i + 1 < total ∧ 0 < b.delay
    · rw [if_pos hc, commitBatchesOf_append, commitBatchesOf_append, ih (i + 1)]
      simp [commitBatchesOf]
    · rw [if_neg hc, commitBatchesOf_append, commitBatchesOf_append, ih (i + 1)]
      simp [commitBatchesOf]

theorem stageBatchesOf_commitOkTrace (b : FileBatcher) (base : String) (total : Nat) :
    ∀ (bs : List (List String)) (i : Nat),
      stageBatchesOf (commitOkTrace b base total bs i) = bs := by
  intro bs
  induction bs with
  | nil => intro i; simp [commitOkTrace, stageBatchesOf]
  | cons batch rest ih =>
    intro i
    rw [commitOkTrace]
    by_cases hc : i + 1 < total ∧ 0 < b.delay
    · rw [if_pos hc, stageBatchesOf_append, stageBatchesOf_append, ih (i + 1)]
      simp [stageBatchesOf]
    · rw [if_neg hc, stageBatchesOf_append, stageBatchesOf_append, ih (i + 1)]
      simp [stageBatchesOf]

theorem commitBatchesOf_commitOkTrace (b : FileBatcher) (base : String) (total : Nat) :
    ∀ (bs : List (List String)) (i : Nat),
      commitBatchesOf (commitOkTrace b base total bs i) = bs := by
  intro bs
  induction bs with
  | nil => intro i; simp [commitOkTrace, commitBatchesOf]
  | cons batch rest ih =>
    intro i
    rw [commitOkTrace]
    by_cases hc : i + 1 < total ∧ 0 < b.delay
    · rw [if_pos hc, commitBatchesOf_append, commitBatchesOf_append, ih (i + 1)]
      simp [commitBatchesOf]
    · rw [if_neg hc, commitBatchesOf_append, commitBatchesOf_append, ih (i + 1)]
      simp [commitBatchesOf]

theorem commitMsgsOf_commitOkTrace (b : FileBatcher) (base : String) (total : Nat) :
    ∀ (bs : List (List String)) (i : Nat),
      commitMsgsOf (commitOkTrace b base total bs i)
        = (List.range bs.length).map (fun j => jsCommitMsg base (i + j + 1) total) := by
  intro bs
  induction bs with
  | nil => intro i; simp [commitOkTrace, commitMsgsOf]
  | cons batch rest ih =>
    intro i
    rw [commitOkTrace]
    have hmaps :
        (List.range (batch :: rest).length).map (fun j => jsCommitMsg base (i + j + 1) total)
          = jsCommitMsg base (i + 1) total
            :: (List.range rest.length).map (fun j => jsCommitMsg base (i + 1 + j + 1) total) := by
      simp only [List.length_cons, List.range_succ_eq_map, List.map_cons, List.map_map]
      have h1 : i + 0 + 1 = i + 1 := by omega
      rw [h1]
      congr 1
      congr 1
      funext j
      simp only [Function.comp]
      congr 1
      omega
    by_cases hc : i + 1 < total ∧ 0 < b.delay
    · rw [if_pos hc, hmaps, commitMsgsOf_append, commitMsgsOf_append, ih (i + 1)]
      simp [commitMsgsOf]
    · rw [if_neg hc, hmaps, commitMsgsOf_append, commitMsgsOf_append, ih (i + 1)]
      simp [commitMsgsOf]

theorem sleepsOf_addOkTrace (b : FileBatcher) (total : Nat) :
    ∀ (bs : List (List String)) (i : Nat), i + bs.length = total →
      sleepsOf (addOkTrace b total bs i)
        = List.replicate (if 0 < b.delay then bs.length - 1 else 0) (Ev.sleep b.delay) := by
  intro bs
  induction bs with
  | nil => intro i htot; simp [addOkTrace, sleepsOf]
  | cons batch rest ih =>
    intro i htot
    have htot' : (i + 1) + rest.length = total := by
      simp only [List.length_cons] at htot
      omega
    rw [addOkTrace]
    cases rest with
    | nil =>
      have hc : ¬(i + 1 < total ∧ 0 < b.delay) := by
        simp only [List.length_nil] at htot'
        intro h
        omega
      rw [if_neg hc]
      simp [sleepsOf_append, sleepsOf, addOkTrace]
    | cons batch2 rest2 =>
      by_cases hdel : 0 < b.delay
      · have hc : i + 1 < total ∧ 0 < b.delay := by
          refine ⟨?_, hdel⟩
          simp only [List.length_cons] at htot'
          omega
        rw [if_pos hc]
        rw [sleepsOf_append, sleepsOf_append]
        rw [ih (i + 1) htot']
        simp only [List.length_cons, sleepsOf, List.filter_cons, List.filter_nil]
        rw [if_pos hdel, if_pos hdel]
        simp [List.replicate_succ]
      · have hc : ¬(i + 1 < total ∧ 0 < b.delay) := by
          intro h
          exact hdel h.2
        rw [if_neg hc]
        rw [sleepsOf_append]
        rw [ih (i + 1) htot']
        simp only [List.length_cons, sleepsOf, List.filter_cons, List.filter_nil]
        rw [if_neg hdel, if_neg hdel]
        simp

theorem sleepsOf_commitOkTrace (b : FileBatcher) (base : String) (total : Nat) :
    ∀ (bs : List (List String)) (i : Nat), i + bs.length = total →
      sleepsOf (commitOkTrace b base total bs i)
        = List.replicate (if 0 < b.delay then bs.length - 1 else 0) (Ev.sleep b.delay) := by
  intro bs
  induction bs with
  | nil => intro i htot; simp [commitOkTrace, sleepsOf]
  | cons batch rest ih =>
    intro i htot
    have htot' : (i + 1) + rest.length = total := by
      simp only [List.length_cons] at htot
      omega
    rw [commitOkTrace]
    cases rest with
    | nil =>
      have hc : ¬(i + 1 < total ∧ 0 < b.delay) := by
        simp only [List.length_nil] at htot'
        intro h
        omega
      rw [if_neg hc]
      simp [sleepsOf_append, sleepsOf, commitOkTrace]
    | cons batch2 rest2 =>
      by_cases hdel : 0 < b.delay
      · have hc : i + 1 < total ∧ 0 < b.delay := by
          refine ⟨?_, hdel⟩
          simp only [List.length_cons] at htot'
          omega
        rw [if_pos hc]
        rw [sleepsOf_append, sleepsOf_append]
        rw [ih (i + 1) htot']
        simp only [List.length_cons, sleepsOf, List.filter_cons, List.filter_nil]
        rw [if_pos hdel, if_pos hdel]
        simp [List.replicate_succ]
      · have hc : ¬(i + 1 < total ∧ 0 < b.delay) := by
          intro h
          exact hdel h.2
        rw [if_neg hc]
        rw [sleepsOf_append]
        rw [ih (i + 1) htot']
        simp only [List.length_cons, sleepsOf, List.filter_cons, List.filter_nil]
        rw [if_neg hdel, if_neg hdel]
        simp

/-! ### Dry-run lemmas -/

theorem addLoop_dry (b : FileBatcher) (o : Oracle) (total : Nat)
    (hd : b.dryRun = true) :
    ∀ (bs : List (List String)) (i : Nat) (st : RunState),
      ∃ st', addLoop b o total i bs st = .ok st' ∧
        st'.sCnt = st.sCnt ∧ st'.cCnt = st.cCnt ∧
        st'.trace.filter isActionEv = st.trace.filter isActionEv := by
  intro bs
  induction bs with
  | nil =>
    intro i st
    refine ⟨st, ?_, rfl, rfl, rfl⟩
    rw [addLoop]
  | cons batch rest ih =>
    intro i st
    rw [addLoop]
    simp only [hd, eq_self_iff_true, if_true]
    by_cases hc : i + 1 < total ∧ 0 < b.delay
    · rw [if_pos hc]
      obtain ⟨st', hrun, h1, h2, h3⟩ := ih (i + 1)
        ⟨st.sCnt, st.cCnt, st.trace ++ [.previewAdd batch] ++ [.sleep b.delay]⟩
      refine ⟨st', hrun, by simpa using h1, by simpa using h2, ?_⟩
      rw [h3]
      simp [List.filter_append, isActionEv]
    · rw [if_neg hc]
      obtain ⟨st', hrun, h1, h2, h3⟩ := ih (i + 1)
        ⟨st.sCnt, st.cCnt, st.trace ++ [.previewAdd batch]⟩
      refine ⟨st', hrun, by simpa using h1, by simpa using h2, ?_⟩
      rw [h3]
      simp [List.filter_append, isActionEv]

theorem addFilesBatched_single_dry (b : FileBatcher) (o : Oracle) (S : Nat)
    (hd : b.dryRun = true) (hb : b.batchSize = (S : Int)) (hS : 1 ≤ S)
    (batch : List String) (hne : batch ≠ []) (hfit : batch.length ≤ S)
    (st : RunState) :
    b.addFilesBatched o batch st
      = .ok ⟨st.sCnt, st.cCnt, st.trace ++ [.previewAdd batch]⟩ := by
  unfold FileBatcher.addFilesBatched
  rw [if_neg (List.length_pos.mpr hne).ne']
  simp only [createBatches_eq_chunks b S hb hS batch,
    chunks_singleton S hS batch hne hfit]
  rw [addLoop]
  simp only [hd, eq_self_iff_true, if_true]
  rw [if_neg (by simp)]
  rw [addLoop]

theorem commitLoop_dry (b : FileBatcher) (o : Oracle) (base : String)
    (total : Nat) (S : Nat) (hd : b.dryRun = true)
    (hb : b.batchSize = (S : Int)) (hS : 1 ≤ S) :
    ∀ (bs : List (List String)) (i : Nat) (st : RunState),
      (∀ batch ∈ bs, batch ≠ [] ∧ batch.length ≤ S) →
      ∃ st', commitLoop b o base total i bs st = .ok st' ∧
        st'.sCnt = st.sCnt ∧ st'.cCnt = st.cCnt ∧
        st'.trace.filter isActionEv = st.trace.filter isActionEv := by
  intro bs
  induction bs with
  | nil =>
    intro i st hwf
    refine ⟨st, ?_, rfl, rfl, rfl⟩
    rw [commitLoop]
  | cons batch rest ih =>
    intro i st hwf
    rw [commitLoop]
    rw [addFilesBatched_single_dry b o S hd hb hS batch (hwf batch (by simp)).1
      (hwf batch (by simp)).2 st]
    simp only [hd, eq_self_iff_true, if_true]
    have hwf' : ∀ x ∈ rest, x ≠ [] ∧ x.length ≤ S := by
      intro x hx
      exact hwf x (by simp [hx])
    by_cases hc : i + 1 < total ∧ 0 < b.delay
    · rw [if_pos hc]
      obtain ⟨st', hrun, h1, h2, h3⟩ := ih (i + 1)
        ⟨st.sCnt, st.cCnt,
         st.trace ++ [.previewAdd batch]
           ++ [.previewCommit (jsCommitMsg base (i + 1) total)]
           ++ [.sleep b.delay]⟩ hwf'
      refine ⟨st', hrun, by simpa using h1, by simpa using h2, ?_⟩
      rw [h3]
      simp [List.filter_append, isActionEv]
    · rw [if_neg hc]
      obtain ⟨st', hrun, h1, h2, h3⟩ := ih (i + 1)
        ⟨st.sCnt, st.cCnt,
         st.trace ++ [.previewAdd batch]
           ++ [.previewCommit (jsCommitMsg base (i + 1) total)]⟩ hwf'
      refine ⟨st', hrun, by simpa using h1, by simpa using h2, ?_⟩
      rw [h3]
      simp [List.filter_append, isActionEv]

/-! ### Claims about the runners -/

/-- C7: in a fully successful commit run with base message `base` over
`N` batches, the commit action for batch `i` (1-indexed) receives
`base ++ " (batch i/N)"` when `N > 1` and `base` unsuffixed when
`N = 1`, batch by batch in order. -/
theorem claim_C7_commit_messages (b : FileBatcher) (o : Oracle) (S : Nat)
    (files : List String) (base : String)
    (hd : b.dryRun = false) (hb : b.batchSize = (S : Int)) (hS : 1 ≤ S)
    (hstage : ∀ n, o.stageOk n = true) (hcommit : ∀ n, o.commitOk n = true) :
    ∃ st, b.commitFilesBatched o files base ⟨0, 0, []⟩ = .ok st ∧
      commitBatchesOf st.trace = chunks S files ∧
      commitMsgsOf st.trace
        = (List.range (chunks S files).length).map (fun j =>
            if 1 < (chunks S files).length then
              base ++ " (batch " ++ toString (j + 1) ++ "/"
                ++ toString (chunks S files).length ++ ")"
            else base) := by
  unfold FileBatcher.commitFilesBatched
  simp only [createBatches_eq_chunks b S hb hS files]
  rw [commitLoop_all_ok b o base (chunks S files).length S hd hb hS hstage hcommit
    (chunks S files) 0 ⟨0, 0, []⟩ (chunks_mem S hS files)]
  refine ⟨_, rfl, ?_, ?_⟩
  · simp [commitBatchesOf_commitOkTrace]
  · simp [commitMsgsOf_commitOkTrace, jsCommitMsg]

theorem claim_C7_witness :
    ∃ st, (FileBatcher.mk 1 false false 100).commitFilesBatched
        ⟨fun _ => true, fun _ => true⟩ ["a", "b", "c"] "Add X" ⟨0, 0, []⟩ = .ok st ∧
      commitBatchesOf st.trace = chunks 1 ["a", "b", "c"] ∧
      commitMsgsOf st.trace
        = (List.range (chunks 1 ["a", "b", "c"]).length).map (fun j =>
            if 1 < (chunks 1 ["a", "b", "c"]).length then
              "Add X" ++ " (batch " ++ toString (j + 1) ++ "/"
                ++ toString (chunks 1 ["a", "b", "c"]).length ++ ")"
            else "Add X") :=
  claim_C7_commit_messages (FileBatcher.mk 1 false false 100)
    ⟨fun _ => true, fun _ => true⟩ 1 ["a", "b", "c"] "Add X" rfl rfl
    (by omega) (fun n => rfl) (fun n => rfl)

/-- C8: in a fully successful run over `B` batches, the inter-batch
sleep of `delay` milliseconds occurs exactly `B - 1` times (after every
batch except the last) when `delay > 0`, and never when `delay = 0`;
this holds for both the staging runner and the commit runner. -/
theorem claim_C8_delays (b : FileBatcher) (o : Oracle) (S : Nat)
    (files : List String) (base : String)
    (hd : b.dryRun = false) (hb : b.batchSize = (S : Int)) (hS : 1 ≤ S)
    (hne : files ≠ [])
    (hstage : ∀ n, o.stageOk n = true) (hcommit : ∀ n, o.commitOk n = true) :
    (∃ st, b.addFilesBatched o files ⟨0, 0, []⟩ = .ok st ∧
      sleepsOf st.trace
        = List.replicate (if 0 < b.delay then (chunks S files).length - 1 else 0)
            (Ev.sleep b.delay)) ∧
    (∃ st, b.commitFilesBatched o files base ⟨0, 0, []⟩ = .ok st ∧
      sleepsOf st.trace
        = List.replicate (if 0 < b.delay then (chunks S files).length - 1 else 0)
            (Ev.sleep b.delay)) := by
  constructor
  · unfold FileBatcher.addFilesBatched
    rw [if_neg (List.length_pos.mpr hne).ne']
    simp only [createBatches_eq_chunks b S hb hS files]
    rw [addLoop_all_ok b o (chunks S files).length hd hstage (chunks S files) 0
      ⟨0, 0, []⟩]
    refine ⟨_, rfl, ?_⟩
    simp only [List.nil_append]
    exact sleepsOf_addOkTrace b (chunks S files).length (chunks S files) 0
      (by omega)
  · unfold FileBatcher.commitFilesBatched
    simp only [createBatches_eq_chunks b S hb hS files]
    rw [commitLoop_all_ok b o base (chunks S files).length S hd hb hS hstage
      hcommit (chunks S files) 0 ⟨0, 0, []⟩ (chunks_mem S hS files)]
    refine ⟨_, rfl, ?_⟩
    simp only [List.nil_append]
    exact sleepsOf_commitOkTrace b base (chunks S files).length (chunks S files) 0
      (by omega)

theorem claim_C8_witness :
    (∃ st, (FileBatcher.mk 2 false false 100).addFilesBatched
        ⟨fun _ => true, fun _ => true⟩ ["a", "b", "c"] ⟨0, 0, []⟩ = .ok st ∧
      sleepsOf st.trace
        = List.replicate
            (if (0 : Int) < 100 then (chunks 2 ["a", "b", "c"]).length - 1 else 0)
            (Ev.sleep 100)) ∧
    (∃ st, (FileBatcher.mk 2 false false 100).commitFilesBatched
        ⟨fun _ => true, fun _ => true⟩ ["a", "b", "c"] "m" ⟨0, 0, []⟩ = .ok st ∧
      sleepsOf st.trace
        = List.replicate
            (if (0 : Int) < 100 then (chunks 2 ["a", "b", "c"]).length - 1 else 0)
            (Ev.sleep 100)) :=
  claim_C8_delays (FileBatcher.mk 2 false false 100)
    ⟨fun _ => true, fun _ => true⟩ 2 ["a", "b", "c"] "m" rfl rfl (by omega)
    (by decide) (fun n => rfl) (fun n => rfl)

/-- C5: under `dryRun = true`, neither the stage action nor the commit
action is ever invoked by either runner — the invocation counters and
the action events of the trace are unchanged — and a dry run never
produces an action failure: it returns success, or the empty-input
validation error for an empty staging list. -/
theorem claim_C5_dry_run_purity (b : FileBatcher) (o : Oracle) (S : Nat)
    (files : List String) (base : String) (st : RunState)
    (hd : b.dryRun = true) (hb : b.batchSize = (S : Int)) (hS : 1 ≤ S) :
    (files = [] → b.addFilesBatched o files st = .err .emptyInput st) ∧
    (files ≠ [] → ∃ st', b.addFilesBatched o files st = .ok st' ∧
      st'.sCnt = st.sCnt ∧ st'.cCnt = st.cCnt ∧
      st'.trace.filter isActionEv = st.trace.filter isActionEv) ∧
    (∃ st', b.commitFilesBatched o files base st = .ok st' ∧
      st'.sCnt = st.sCnt ∧ st'.cCnt = st.cCnt ∧
      st'.trace.filter isActionEv = st.trace.filter isActionEv) := by
  refine ⟨?_, ?_, ?_⟩
  · intro h
    subst h
    rfl
  · intro hne
    unfold FileBatcher.addFilesBatched
    rw [if_neg (List.length_pos.mpr hne).ne']
    simp only [createBatches_eq_chunks b S hb hS files]
    exact addLoop_dry b o (chunks S files).length hd (chunks S files) 0 st
  · unfold FileBatcher.commitFilesBatched
    simp only [createBatches_eq_chunks b S hb hS files]
    exact commitLoop_dry b o base (chunks S files).length S hd hb hS
      (chunks S files) 0 st (chunks_mem S hS files)

theorem claim_C5_witness :
    (["a", "b", "c"] = ([] : List String) →
      (FileBatcher.mk 2 false true 100).addFilesBatched
        ⟨fun _ => false, fun _ => false⟩ ["a", "b", "c"] ⟨0, 0, []⟩
        = .err .emptyInput ⟨0, 0, []⟩) ∧
    (["a", "b", "c"] ≠ ([] : List String) →
      ∃ st', (FileBatcher.mk 2 false true 100).addFilesBatched
          ⟨fun _ => false, fun _ => false⟩ ["a", "b", "c"] ⟨0, 0, []⟩ = .ok st' ∧
        st'.sCnt = (⟨0, 0, []⟩ : RunState).sCnt ∧
        st'.cCnt = (⟨0, 0, []⟩ : RunState).cCnt ∧
        st'.trace.filter isActionEv
          = (⟨0, 0, []⟩ : RunState).trace.filter isActionEv) ∧
    (∃ st', (FileBatcher.mk 2 false true 100).commitFilesBatched
        ⟨fun _ => false, fun _ => false⟩ ["a", "b", "c"] "m" ⟨0, 0, []⟩ = .ok st' ∧
      st'.sCnt = (⟨0, 0, []⟩ : RunState).sCnt ∧
      st'.cCnt = (⟨0, 0, []⟩ : RunState).cCnt ∧
      st'.trace.filter isActionEv
        = (⟨0, 0, []⟩ : RunState).trace.filter isActionEv) :=
  claim_C5_dry_run_purity (FileBatcher.mk 2 false true 100)
    ⟨fun _ => false, fun _ => false⟩ 2 ["a", "b", "c"] "m" ⟨0, 0, []⟩
    rfl rfl (by omega)

/-- C2: if the stage or commit action fails on batch `k`, the runner
stops immediately and propagates the failure: the stage action is
invoked exactly for batches `0..k` (never beyond `k`), the commit
action only for batches staged and committed before the failure (for
batches `0..k-1` on a stage failure, `0..k` on a commit failure), and
the batches applied before the failure remain applied in the trace — no
rollback occurs.  The staging-only runner behaves the same way with no
commit invocation at all. -/
theorem claim_C2_halt_on_failure (b : FileBatcher) (o : Oracle) (S : Nat)
    (files : List String) (base : String) (k : Nat)
    (hd : b.dryRun = false) (hb : b.batchSize = (S : Int)) (hS : 1 ≤ S)
    (hk : k < (chunks S files).length) :
    ((∀ j, j < k → o.stageOk j = true) → o.stageOk k = false →
      (∀ j, j < k → o.commitOk j = true) →
      ∃ batchk st, (chunks S files)[k]? = some batchk ∧
        b.commitFilesBatched o files base ⟨0, 0, []⟩
          = .err (.stageFailed batchk) st ∧
        stageBatchesOf st.trace = (chunks S files).take (k + 1) ∧
        commitBatchesOf st.trace = (chunks S files).take k) ∧
    ((∀ j, j ≤ k → o.stageOk j = true) → (∀ j, j < k → o.commitOk j = true) →
      o.commitOk k = false →
      ∃ batchk st, (chunks S files)[k]? = some batchk ∧
        b.commitFilesBatched o files base ⟨0, 0, []⟩
          = .err (.commitFailed (jsCommitMsg base (k + 1) (chunks S files).length)) st ∧
        stageBatchesOf st.trace = (chunks S files).take (k + 1) ∧
        commitBatchesOf st.trace = (chunks S files).take (k + 1)) ∧
    ((∀ j, j < k → o.stageOk j = true) → o.stageOk k = false →
      ∃ batchk st, (chunks S files)[k]? = some batchk ∧
        b.addFilesBatched o files ⟨0, 0, []⟩ = .err (.stageFailed batchk) st ∧
        stageBatchesOf st.trace = (chunks S files).take (k + 1) ∧
        commitBatchesOf st.trace = []) := by
  have hfilesne : files ≠ [] := by
    intro h
    subst h
    rw [chunks_nil] at hk
    simp at hk
  refine ⟨?_, ?_, ?_⟩
  · intro hpre hfail hcpre
    unfold FileBatcher.commitFilesBatched
    simp only [createBatches_eq_chunks b S hb hS files]
    obtain ⟨batchk, hbk, hrun⟩ :=
      commitLoop_fail_stage b o base (chunks S files).length S hd hb hS k
        (chunks S files) 0 ⟨0, 0, []⟩ (chunks_mem S hS files) hk rfl
        (by
          intro j hj
          simpa using hpre j hj)
        (by simpa using hfail)
        (by
          intro j hj
          simpa using hcpre j hj)
    refine ⟨batchk, _, hbk, hrun, ?_, ?_⟩
    · simp only [List.nil_append, stageBatchesOf_append,
        stageBatchesOf_commitOkTrace]
      rw [List.take_succ, hbk]
      simp [stageBatchesOf]
    · simp only [List.nil_append, commitBatchesOf_append,
        commitBatchesOf_commitOkTrace]
      simp [commitBatchesOf]
  · intro hpre hcpre hcfail
    unfold FileBatcher.commitFilesBatched
    simp only [createBatches_eq_chunks b S hb hS files]
    obtain ⟨batchk, hbk, hrun⟩ :=
      commitLoop_fail_commit b o base (chunks S files).length S hd hb hS k
        (chunks S files) 0 ⟨0, 0, []⟩ (chunks_mem S hS files) hk rfl
        (by
          intro j hj
          simpa using hpre j hj)
        (by
          intro j hj
          simpa using hcpre j hj)
        (by simpa using hcfail)
    rw [show (0 : Nat) + k + 1 = k + 1 from by omega] at hrun
    refine ⟨batchk, _, hbk, hrun, ?_, ?_⟩
    · simp only [List.nil_append, stageBatchesOf_append,
        stageBatchesOf_commitOkTrace]
      rw [List.take_succ, hbk]
      simp [stageBatchesOf]
    · simp only [List.nil_append, commitBatchesOf_append,
        commitBatchesOf_commitOkTrace]
      rw [List.take_succ, hbk]
      simp [commitBatchesOf]
  · intro hpre hfail
    unfold FileBatcher.addFilesBatched
    rw [if_neg (List.length_pos.mpr hfilesne).ne']
    simp only [createBatches_eq_chunks b S hb hS files]
    obtain ⟨batchk, hbk, hrun⟩ :=
      addLoop_fail b o (chunks S files).length hd k (chunks S files) 0
        ⟨0, 0, []⟩ hk
        (by
          intro j hj
          simpa using hpre j hj)
        (by simpa using hfail)
    refine ⟨batchk, _, hbk, hrun, ?_, ?_⟩
    · simp only [List.nil_append, stageBatchesOf_append,
        stageBatchesOf_addOkTrace]
      rw [List.take_succ, hbk]
      simp [stageBatchesOf]
    · simp only [List.nil_append, commitBatchesOf_append,
        commitBatchesOf_addOkTrace]
      simp [commitBatchesOf]

theorem claim_C2_witness :
    ∃ batchk st, (chunks 1 ["a", "b", "c"])[1]? = some batchk ∧
      (FileBatcher.mk 1 false false 100).commitFilesBatched
          ⟨fun n => decide (n < 1), fun _ => true⟩ ["a", "b", "c"] "m" ⟨0, 0, []⟩
        = .err (.stageFailed batchk) st ∧
      stageBatchesOf st.trace = (chunks 1 ["a", "b", "c"]).take 2 ∧
      commitBatchesOf st.trace = (chunks 1 ["a", "b", "c"]).take 1 :=
  (claim_C2_halt_on_failure (FileBatcher.mk 1 false false 100)
      ⟨fun n => decide (n < 1), fun _ => true⟩ 1 ["a", "b", "c"] "m" 1 rfl rfl
      (by omega)
      (by
        rw [chunks_length 1 (by omega) ["a", "b", "c"]]
        norm_num)).1
    (by
      intro j hj
      simpa using hj)
    rfl
    (fun j hj => rfl)
